import Mathlib

/-!
Verification of the textbus format-model and rendering core.

This file gives a shallow embedding of the repository's format model
(`FormatRange`, the per-node format matrix and its merge pass), the margin
formatter's `render`, `Single.render`/`Single.clone`, the cursor/selection
bridge of `Input`, the toolbar delta reduction and the commander protocol
(`Editor.apply`, `TableCommander`, `ListCommander`), and proves the stated
properties about them.
-/

/-- Format state of a `FormatRange` (spec section 3: `state: enum {Valid, Invalid}`). -/
inductive FormatState where
  | valid
  | invalid
deriving DecidableEq

/-- A span `[startIndex, endIndex)` of a content container carrying a format
state and abstract data (spec section 3).  `α` is the type of the
`abstractData` payload: a concrete structure where deep equality matters, or a
heap reference where aliasing matters. -/
structure FormatRange (α : Type) where
  startIndex : Nat
  endIndex : Nat
  state : FormatState
  abstractData : α
deriving DecidableEq

variable {α β γ : Type}

/-- Membership of a content offset in the half-open interval of a range. -/
def FormatRange.inR (r : FormatRange α) (n : Nat) : Prop :=
  r.startIndex ≤ n ∧ n < r.endIndex

/-- Two ranges are interval-disjoint: no offset lies in both. -/
def DisjR (a b : FormatRange α) : Prop :=
  ∀ n, a.inR n → b.inR n → False

theorem DisjR.symm_rel {a b : FormatRange α} (h : DisjR a b) : DisjR b a :=
  fun n hb ha => h n ha hb

/-- Remove the interval `[lo, hi)` from a range, keeping the at most two
non-empty remaining pieces.  This is how the merge pass truncates or splits a
range around another one (spec section 4.3). -/
def cutRange (lo hi : Nat) (r : FormatRange α) : List (FormatRange α) :=
  (if r.startIndex < min r.endIndex lo then
      [{ r with endIndex := min r.endIndex lo }] else []) ++
    (if max r.startIndex hi < r.endIndex then
      [{ r with startIndex := max r.startIndex hi }] else [])

/-- Concatenation of the images of the elements of a list. -/
def concatMap (f : β → List γ) : List β → List γ
  | [] => []
  | a :: l => f a ++ concatMap f l

theorem mem_concatMap {f : β → List γ} {c : γ} :
    ∀ {l : List β}, c ∈ concatMap f l ↔ ∃ a ∈ l, c ∈ f a := by
  intro l
  induction l with
  | nil => simp [concatMap]
  | cons a t ih => simp [concatMap, ih]

/-- Cut every piece in `ps` by the interval of every range in `ivs`. -/
def subAll (ivs : List (FormatRange α)) (ps : List (FormatRange α)) :
    List (FormatRange α) :=
  match ivs with
  | [] => ps
  | iv :: rest => subAll rest (concatMap (cutRange iv.startIndex iv.endIndex) ps)

/-- Order used to keep a merged range list sorted by `startIndex` ascending. -/
def byStart (a b : FormatRange α) : Prop := a.startIndex ≤ b.startIndex

instance : DecidableRel (@byStart α) := fun a b => Nat.decLe a.startIndex b.startIndex

instance : IsTotal (FormatRange α) byStart := ⟨fun a b => Nat.le_total _ _⟩

instance : IsTrans (FormatRange α) byStart := ⟨fun _ _ _ => Nat.le_trans⟩

/-- Sort a range list by `startIndex` ascending. -/
def sortRanges (l : List (FormatRange α)) : List (FormatRange α) :=
  l.insertionSort byStart

/-- Coalesce touching ranges with identical state and abstract data
(spec section 4.3: adjacent ranges with identical state and abstractData are
coalesced into one). -/
def coalesce [DecidableEq α] : List (FormatRange α) → List (FormatRange α)
  | [] => []
  | a :: rest =>
    match coalesce rest with
    | [] => [a]
    | b :: rest2 =>
      if a.endIndex = b.startIndex ∧ a.state = b.state ∧ a.abstractData = b.abstractData then
        { a with endIndex := b.endIndex } :: rest2
      else
        a :: b :: rest2

/-- Modelled from the spec: the existing ranges of the target handler after the
walk of spec section 4.3.  The repository's `mergeFormat` lives in
`lib/lib/parser/utils.ts`, which is not among the provided sources (only its
caller `Single.mergeFormat` is), so the merge pass is modelled from the spec's
algorithm.  With `important` the new range supersedes every overlapping
portion (each existing range is truncated or split to make room); without it
an existing range whose state is already Valid wins and is kept whole, while
an Invalid one yields to the new range. -/
def keptExisting [DecidableEq α] (existing : List (FormatRange α))
    (f : FormatRange α) (important : Bool) : List (FormatRange α) :=
  if important then concatMap (cutRange f.startIndex f.endIndex) existing
  else
    concatMap (fun r =>
      if r.state = FormatState.valid then [r]
      else cutRange f.startIndex f.endIndex r) existing

/-- Modelled from the spec: the pieces of the incoming range that survive the
walk of spec section 4.3.  With `important` the new range lands whole; without
it the new range is truncated or split to avoid duplicating the coverage of
already-Valid existing ranges (existing formatting wins). -/
def newPieces [DecidableEq α] (existing : List (FormatRange α))
    (f : FormatRange α) (important : Bool) : List (FormatRange α) :=
  if important then [f]
  else subAll (existing.filter (fun r => decide (r.state = FormatState.valid))) [f]

/-- Modelled from the spec: one merge pass of `mergeFormat` (spec section 4.3)
on the range list of one handler.  Non-overlapping existing ranges are
preserved as-is, the surviving pieces are kept sorted by `startIndex`
ascending, empty ranges are dropped, and touching ranges with identical state
and abstract data are coalesced. -/
def mergeRanges [DecidableEq α] (existing : List (FormatRange α))
    (f : FormatRange α) (important : Bool) : List (FormatRange α) :=
  coalesce (sortRanges
    (((keptExisting existing f important ++ newPieces existing f important).filter
      (fun r => decide (r.startIndex < r.endIndex)))))

/-- Modelled from the spec: `Single.mergeFormat` delegates to the matrix-level
`mergeFormat` of `lib/lib/parser/utils.ts` (not among the provided sources).
The format matrix maps a handler key to its ordered range list; a merge pass
rewrites the entry of the incoming range's handler and leaves every other key
untouched. -/
def mergeFormat [DecidableEq α] (matrix : Nat → List (FormatRange α))
    (handler : Nat) (f : FormatRange α) (important : Bool) :
    Nat → List (FormatRange α) :=
  fun k => if k = handler then mergeRanges (matrix handler) f important else matrix k

/-- Every range in the list is non-empty. -/
def NonemptyRanges (l : List (FormatRange α)) : Prop :=
  ∀ r ∈ l, r.startIndex < r.endIndex

/-- The list is chained: each range ends no later than the next one starts. -/
def ChainedRanges (l : List (FormatRange α)) : Prop :=
  List.Pairwise (fun a b => a.endIndex ≤ b.startIndex) l

/-- The invariant of one key of the format matrix. -/
def MatrixKeyInv (l : List (FormatRange α)) : Prop :=
  NonemptyRanges l ∧ ChainedRanges l

/-- The list is sorted by `startIndex` ascending. -/
def SortedByStart (l : List (FormatRange α)) : Prop :=
  List.Sorted byStart l

/-- Every pair of distinct stored ranges is non-overlapping as half-open
intervals. -/
def NoOverlap (l : List (FormatRange α)) : Prop :=
  List.Pairwise (fun a b => a.endIndex ≤ b.startIndex ∨ b.endIndex ≤ a.startIndex) l

instance {l : List (FormatRange α)} : Decidable (NonemptyRanges l) := by
  unfold NonemptyRanges; infer_instance

instance {l : List (FormatRange α)} : Decidable (ChainedRanges l) := by
  unfold ChainedRanges; infer_instance

instance {l : List (FormatRange α)} : Decidable (MatrixKeyInv l) := by
  unfold MatrixKeyInv; infer_instance

instance {l : List (FormatRange α)} : Decidable (SortedByStart l) := by
  unfold SortedByStart; infer_instance

instance {l : List (FormatRange α)} : Decidable (NoOverlap l) := by
  unfold NoOverlap; infer_instance

theorem FormatRange.inR_def (r : FormatRange α) (n : Nat) :
    r.inR n ↔ r.startIndex ≤ n ∧ n < r.endIndex := Iff.rfl

theorem mem_cutRange {lo hi : Nat} {r p : FormatRange α} (hp : p ∈ cutRange lo hi r) :
    ∀ n, p.inR n → r.inR n ∧ (n < lo ∨ hi ≤ n) := by
  intro n hn
  unfold cutRange at hp
  rcases List.mem_append.mp hp with hp2 | hp2 <;> split at hp2 <;>
    first
      | exact absurd hp2 (List.not_mem_nil _)
      | (obtain rfl := List.mem_singleton.mp hp2
         simp only [FormatRange.inR_def] at hn ⊢
         simp at hn ⊢
         omega)

theorem cutRange_pairwise {lo hi : Nat} (hlh : lo ≤ hi) (r : FormatRange α) :
    (cutRange lo hi r).Pairwise DisjR := by
  have hdisj : DisjR ({ r with endIndex := min r.endIndex lo } : FormatRange α)
      ({ r with startIndex := max r.startIndex hi } : FormatRange α) := by
    intro n h1 h2
    simp only [FormatRange.inR_def] at h1 h2
    simp at h1 h2
    omega
  unfold cutRange
  split <;> split <;>
    simp_all [List.pairwise_append, DisjR.symm_rel hdisj]

theorem concatMap_pairwise {f : FormatRange α → List (FormatRange α)}
    {l : List (FormatRange α)} (hl : l.Pairwise DisjR)
    (hin : ∀ a ∈ l, (f a).Pairwise DisjR)
    (hsub : ∀ a ∈ l, ∀ p ∈ f a, ∀ n, p.inR n → a.inR n) :
    (concatMap f l).Pairwise DisjR := by
  induction l with
  | nil => exact List.Pairwise.nil
  | cons a t ih =>
    rw [concatMap, List.pairwise_append]
    refine ⟨hin a (by simp), ih hl.of_cons (fun b hb => hin b (by simp [hb]))
      (fun b hb => hsub b (by simp [hb])), ?_⟩
    intro p hp q hq
    obtain ⟨b, hbt, hqb⟩ := mem_concatMap.mp hq
    have hab : DisjR a b := (List.pairwise_cons.mp hl).1 b hbt
    intro n hpn hqn
    exact hab n (hsub a (by simp) p hp n hpn) (hsub b (by simp [hbt]) q hqb n hqn)

theorem subAll_spec :
    ∀ (ivs ps : List (FormatRange α)),
      (∀ iv ∈ ivs, iv.startIndex ≤ iv.endIndex) → ps.Pairwise DisjR →
      (subAll ivs ps).Pairwise DisjR ∧
        ∀ q ∈ subAll ivs ps, ∀ n, q.inR n →
          (∃ p ∈ ps, p.inR n) ∧ ∀ iv ∈ ivs, ¬ iv.inR n
  | [], ps, _, hps => by
      refine ⟨hps, ?_⟩
      intro q hq n hn
      exact ⟨⟨q, hq, hn⟩, by simp⟩
  | iv :: rest, ps, hiv, hps => by
      rw [subAll]
      have hps2p : (concatMap (cutRange iv.startIndex iv.endIndex) ps).Pairwise DisjR :=
        concatMap_pairwise hps
          (fun a _ => cutRange_pairwise (hiv iv (by simp)) a)
          (fun a _ p hp n hn => (mem_cutRange hp n hn).1)
      obtain ⟨hpair, hmem⟩ := subAll_spec rest
        (concatMap (cutRange iv.startIndex iv.endIndex) ps)
        (fun i hi => hiv i (by simp [hi])) hps2p
      refine ⟨hpair, ?_⟩
      intro q hq n hn
      obtain ⟨⟨p2, hp2, hp2n⟩, hrest⟩ := hmem q hq n hn
      obtain ⟨p, hpps, hpcut⟩ := mem_concatMap.mp hp2
      have hcut := mem_cutRange hpcut n hp2n
      refine ⟨⟨p, hpps, hcut.1⟩, ?_⟩
      intro i hi
      rcases List.mem_cons.mp hi with rfl | hi2
      · rw [FormatRange.inR_def]
        rcases hcut.2 with h | h <;> omega
      · exact hrest i hi2

theorem ChainedRanges.disj {l : List (FormatRange α)} (h : ChainedRanges l) :
    l.Pairwise DisjR := by
  refine h.imp ?_
  intro a b hab n h1 h2
  rw [FormatRange.inR_def] at h1 h2
  omega

theorem keptExisting_pairwise [DecidableEq α] {existing : List (FormatRange α)}
    {f : FormatRange α} {important : Bool} (hex : ChainedRanges existing)
    (hf : f.startIndex ≤ f.endIndex) :
    (keptExisting existing f important).Pairwise DisjR := by
  cases important with
  | true =>
    rw [keptExisting, if_pos rfl]
    exact concatMap_pairwise hex.disj (fun a _ => cutRange_pairwise hf a)
      (fun a _ p hp n hn => (mem_cutRange hp n hn).1)
  | false =>
    rw [keptExisting, if_neg (by simp)]
    refine concatMap_pairwise hex.disj (fun a _ => ?_) (fun a _ p hp n hn => ?_)
    · split
      · simp [DisjR]
      · exact cutRange_pairwise hf a
    · split at hp
      · obtain rfl := List.mem_singleton.mp hp
        exact hn
      · exact (mem_cutRange hp n hn).1

theorem newPieces_spec [DecidableEq α] {existing : List (FormatRange α)}
    {f : FormatRange α} {important : Bool} (hne : NonemptyRanges existing) :
    (newPieces existing f important).Pairwise DisjR ∧
      (important = false → ∀ q ∈ newPieces existing f important, ∀ n, q.inR n →
        f.inR n ∧ ∀ iv ∈ existing, iv.state = FormatState.valid → ¬ iv.inR n) := by
  cases important with
  | true =>
    rw [newPieces, if_pos rfl]
    exact ⟨by simp [DisjR], by intro h; cases h⟩
  | false =>
    rw [newPieces, if_neg (by simp)]
    have hiv : ∀ iv ∈ existing.filter (fun r => decide (r.state = FormatState.valid)),
        iv.startIndex ≤ iv.endIndex := by
      intro iv hivmem
      exact Nat.le_of_lt (hne iv (List.mem_of_mem_filter hivmem))
    obtain ⟨hp, hm⟩ := subAll_spec
      (existing.filter (fun r => decide (r.state = FormatState.valid))) [f] hiv
      (by simp [DisjR])
    refine ⟨hp, fun _ q hq n hn => ?_⟩
    obtain ⟨⟨p, hpmem, hpn⟩, havoid⟩ := hm q hq n hn
    obtain rfl := List.mem_singleton.mp hpmem
    refine ⟨hpn, fun iv hivex hivst => ?_⟩
    exact havoid iv (List.mem_filter.mpr ⟨hivex, by simp [hivst]⟩)

theorem merged_pairwise [DecidableEq α] {existing : List (FormatRange α)}
    {f : FormatRange α} {important : Bool} (hex : MatrixKeyInv existing)
    (hf : f.startIndex ≤ f.endIndex) :
    (keptExisting existing f important ++ newPieces existing f important).Pairwise DisjR := by
  rw [List.pairwise_append]
  refine ⟨keptExisting_pairwise hex.2 hf, (newPieces_spec hex.1).1, ?_⟩
  intro p hp q hq
  cases important with
  | true =>
    rw [newPieces, if_pos rfl] at hq
    obtain rfl := List.mem_singleton.mp hq
    rw [keptExisting, if_pos rfl] at hp
    obtain ⟨r, hrmem, hrcut⟩ := mem_concatMap.mp hp
    intro n hpn hqn
    have hc := (mem_cutRange hrcut n hpn).2
    rw [FormatRange.inR_def] at hqn
    omega
  | false =>
    rw [keptExisting, if_neg (by simp)] at hp
    obtain ⟨r, hrmem, hrpiece⟩ := mem_concatMap.mp hp
    have hqspec := (newPieces_spec hex.1).2 rfl q hq
    split at hrpiece
    · obtain rfl := List.mem_singleton.mp hrpiece
      intro n hpn hqn
      exact (hqspec n hqn).2 p hrmem (by assumption) hpn
    · intro n hpn hqn
      have hc := (mem_cutRange hrpiece n hpn).2
      have hf2 := (hqspec n hqn).1
      rw [FormatRange.inR_def] at hf2
      omega

theorem chained_of_sorted_disj :
    ∀ {l : List (FormatRange α)}, SortedByStart l → l.Pairwise DisjR →
      NonemptyRanges l → ChainedRanges l := by
  intro l
  induction l with
  | nil => intro _ _ _; exact List.Pairwise.nil
  | cons a t ih =>
    intro hs hd hne
    rw [ChainedRanges, List.pairwise_cons]
    obtain ⟨hs1, hs2⟩ := List.pairwise_cons.mp hs
    obtain ⟨hd1, hd2⟩ := List.pairwise_cons.mp hd
    refine ⟨?_, ih hs2 hd2 (fun r hr => hne r (by simp [hr]))⟩
    intro b hb
    by_contra hcon
    push_neg at hcon
    have hab : a.startIndex ≤ b.startIndex := hs1 b hb
    have hna : a.startIndex < a.endIndex := hne a (by simp)
    have hnb : b.startIndex < b.endIndex := hne b (by simp [hb])
    exact hd1 b hb (max a.startIndex b.startIndex)
      (by rw [FormatRange.inR_def]; omega)
      (by rw [FormatRange.inR_def]; omega)

theorem coalesce_start_mem [DecidableEq α] :
    ∀ (l : List (FormatRange α)) (p : FormatRange α), p ∈ coalesce l →
      ∃ b ∈ l, p.startIndex = b.startIndex
  | [], p, hp => by rw [coalesce] at hp; cases hp
  | a :: rest, p, hp => by
    rw [coalesce] at hp
    split at hp
    · obtain rfl := List.mem_singleton.mp hp
      exact ⟨p, by simp, rfl⟩
    · rename_i b rest2 hrec
      split at hp
      · rcases List.mem_cons.mp hp with rfl | hp2
        · exact ⟨a, by simp, rfl⟩
        · obtain ⟨c, hc, he⟩ := coalesce_start_mem rest p
            (by rw [hrec]; exact List.mem_cons_of_mem b hp2)
          exact ⟨c, by simp [hc], he⟩
      · rcases List.mem_cons.mp hp with rfl | hp2
        · exact ⟨p, by simp, rfl⟩
        · obtain ⟨c, hc, he⟩ := coalesce_start_mem rest p (by rw [hrec]; exact hp2)
          exact ⟨c, by simp [hc], he⟩

theorem coalesce_inv [DecidableEq α] :
    ∀ l : List (FormatRange α), NonemptyRanges l → ChainedRanges l →
      NonemptyRanges (coalesce l) ∧ ChainedRanges (coalesce l)
  | [], _, _ => by
    rw [coalesce]
    exact ⟨fun r hr => absurd hr (List.not_mem_nil r), List.Pairwise.nil⟩
  | a :: rest, hne, hch => by
    obtain ⟨hne2, hch2⟩ :=
      coalesce_inv rest (fun r hr => hne r (by simp [hr])) hch.of_cons
    have hchain_a : ∀ c ∈ coalesce rest, a.endIndex ≤ c.startIndex := by
      intro c hc
      obtain ⟨c0, hc0, he⟩ := coalesce_start_mem rest c hc
      rw [he]
      exact (List.pairwise_cons.mp hch).1 c0 hc0
    rw [coalesce]
    split
    · refine ⟨?_, List.pairwise_singleton _ _⟩
      intro r hr
      obtain rfl := List.mem_singleton.mp hr
      exact hne r (by simp)
    · rename_i b rest2 hrec
      rw [hrec] at hne2 hch2
      rw [hrec] at hchain_a
      split
      · rename_i hcond
        obtain ⟨hc1, _, _⟩ := hcond
        constructor
        · intro r hr
          rcases List.mem_cons.mp hr with rfl | hr2
          · show a.startIndex < b.endIndex
            have hb : b.startIndex < b.endIndex := hne2 b (by simp)
            have ha : a.startIndex < a.endIndex := hne a (by simp)
            omega
          · exact hne2 r (by simp [hr2])
        · rw [ChainedRanges, List.pairwise_cons]
          refine ⟨?_, (List.pairwise_cons.mp hch2).2⟩
          intro c hc
          show b.endIndex ≤ c.startIndex
          exact (List.pairwise_cons.mp hch2).1 c hc
      · constructor
        · intro r hr
          rcases List.mem_cons.mp hr with rfl | hr2
          · exact hne r (by simp)
          · exact hne2 r hr2
        · rw [ChainedRanges, List.pairwise_cons]
          refine ⟨?_, hch2⟩
          intro c hc
          rcases List.mem_cons.mp hc with rfl | hc2
          · exact hchain_a c (by simp)
          · exact hchain_a c (by simp [hc2])

theorem mergeRanges_inv [DecidableEq α] (existing : List (FormatRange α))
    (f : FormatRange α) (important : Bool) (hex : MatrixKeyInv existing)
    (hf : f.startIndex ≤ f.endIndex) :
    MatrixKeyInv (mergeRanges existing f important) := by
  rw [mergeRanges]
  have hbd : ((keptExisting existing f important ++
      newPieces existing f important).filter
        (fun r => decide (r.startIndex < r.endIndex))).Pairwise DisjR :=
    (merged_pairwise hex hf).sublist (List.filter_sublist _)
  have hbne : NonemptyRanges ((keptExisting existing f important ++
      newPieces existing f important).filter
        (fun r => decide (r.startIndex < r.endIndex))) := by
    intro r hr
    have hd := List.of_mem_filter hr
    simpa using hd
  have hperm := List.perm_insertionSort byStart
    ((keptExisting existing f important ++ newPieces existing f important).filter
      (fun r => decide (r.startIndex < r.endIndex)))
  have hsd : (sortRanges ((keptExisting existing f important ++
      newPieces existing f important).filter
        (fun r => decide (r.startIndex < r.endIndex)))).Pairwise DisjR := by
    rw [sortRanges]
    exact (hperm.pairwise_iff (fun hab => hab.symm_rel)).mpr hbd
  have hss : SortedByStart (sortRanges ((keptExisting existing f important ++
      newPieces existing f important).filter
        (fun r => decide (r.startIndex < r.endIndex)))) :=
    List.sorted_insertionSort byStart _
  have hsne : NonemptyRanges (sortRanges ((keptExisting existing f important ++
      newPieces existing f important).filter
        (fun r => decide (r.startIndex < r.endIndex)))) := by
    intro r hr
    rw [sortRanges] at hr
    exact hbne r (hperm.mem_iff.mp hr)
  exact coalesce_inv _ hsne (chained_of_sorted_disj hss hsd hsne)

/-- C1: after any merge pass (`Single.mergeFormat` applied to a format
matrix), for every handler key, every pair of distinct `FormatRange`s stored
under that key is non-overlapping as half-open intervals, and the stored
sequence is sorted by `startIndex` ascending.  The merge pass is modelled from
spec section 4.3 because `lib/lib/parser/utils.ts` is not among the provided
sources; the invariant is preserved from any matrix that already satisfies it
(matrices are built from empty ones by merge passes). -/
theorem claim_C1_merge_no_overlap_sorted [DecidableEq α]
    (matrix : Nat → List (FormatRange α)) (handler : Nat) (f : FormatRange α)
    (important : Bool) (hm : ∀ k, MatrixKeyInv (matrix k))
    (hf : f.startIndex ≤ f.endIndex) :
    ∀ k, SortedByStart (mergeFormat matrix handler f important k) ∧
      NoOverlap (mergeFormat matrix handler f important k) := by
  have key : ∀ l : List (FormatRange α), MatrixKeyInv l → SortedByStart l ∧ NoOverlap l := by
    intro l hl
    constructor
    · refine hl.2.imp_of_mem ?_
      intro a b ha hb hab
      have h1 := hl.1 a ha
      show a.startIndex ≤ b.startIndex
      omega
    · exact hl.2.imp (fun hab => Or.inl hab)
  intro k
  by_cases hk : k = handler
  · subst hk
    simp only [mergeFormat, if_pos rfl]
    exact key _ (mergeRanges_inv _ f important (hm k) hf)
  · simp only [mergeFormat, if_neg hk]
    exact key _ (hm k)

/-- Concrete format matrix used by the witness of C1. -/
def wMatrixC1 : Nat → List (FormatRange Nat) :=
  fun j => if j = 0 then [⟨0, 2, FormatState.valid, 7⟩] else []

/-- Witness for C1: the hypotheses hold at a concrete matrix and incoming
range, and the theorem applies there. -/
theorem claim_C1_merge_no_overlap_sorted_witness :
    (∀ k, MatrixKeyInv (wMatrixC1 k)) ∧
      ((⟨1, 4, FormatState.valid, 7⟩ : FormatRange Nat).startIndex ≤
        (⟨1, 4, FormatState.valid, 7⟩ : FormatRange Nat).endIndex) ∧
      (SortedByStart (mergeFormat wMatrixC1 0 ⟨1, 4, FormatState.valid, 7⟩ false 0) ∧
        NoOverlap (mergeFormat wMatrixC1 0 ⟨1, 4, FormatState.valid, 7⟩ false 0)) := by
  have hm : ∀ k, MatrixKeyInv (wMatrixC1 k) := by
    intro k
    rw [wMatrixC1]
    split <;> decide
  exact ⟨hm, by decide,
    claim_C1_merge_no_overlap_sorted wMatrixC1 0 ⟨1, 4, FormatState.valid, 7⟩ false hm
      (by decide) 0⟩

/-- A structural snapshot of what an element would need to be or have
(spec section 3): tag, attributes, styles and classes.  The margin formatter
only consults `tag` and `styles`. -/
structure FormatAbstractData where
  tag : String
  attrs : List (String × String)
  styles : List (String × String)
  classes : List String
deriving DecidableEq, Inhabited

/-- Embedding of `styles.get(key)` on `FormatAbstractData`: the value stored under a style
key, if any. -/
def FormatAbstractData.stylesGet (d : FormatAbstractData) (key : String) :
    Option String :=
  (d.styles.find? (fun kv => kv.1 == key)).map (fun kv => kv.2)

/-- A virtual element (`VElement` of `core/_api`): tag name plus style map. -/
structure VElement where
  tagName : String
  styles : List (String × String)
deriving DecidableEq

/-- Embedding of `styles.set(key, value)` on a `VElement`: update the entry if the key is
present, append it otherwise (JS `Map.set` semantics, insertion order kept). -/
def VElement.stylesSet (e : VElement) (key value : String) : VElement :=
  if e.styles.any (fun kv => kv.1 == key) then
    { e with styles := e.styles.map (fun kv => if kv.1 == key then (kv.1, value) else kv) }
  else
    { e with styles := e.styles ++ [(key, value)] }

/-- ASCII lower-casing of one character. -/
def lowerChar (c : Char) : Char :=
  if 65 ≤ c.toNat ∧ c.toNat ≤ 90 then Char.ofNat (c.toNat + 32) else c

/-- ASCII lower-casing of a tag name. -/
def lowerString (s : String) : String :=
  ⟨s.data.map lowerChar⟩

/-- The test of `MarginFormatter.reg`: the regular expression is
`^(t1|...|tn)$` with the `i` flag over the constructor's tag list, so a tag
name matches exactly when its lower-cased form is one of the (lower-case)
tags. -/
def regTest (tags : List String) (tagName : String) : Bool :=
  tags.contains (lowerString tagName)

/-- The list `InlineMarginFormatter.inlineTags`. -/
def inlineTags : List String :=
  ["span", "em", "i", "s", "del", "sup", "sub", "u", "strong"]

/-- The list `BlockMarginFormatter.blockTags`. -/
def blockTags : List String :=
  ["div", "p", "h1", "h2", "h3", "h4", "h5", "h6", "nav", "header", "footer",
    "td", "th", "li", "article"]

/-- JS `i || 0` followed by `Array.join`: a missing or empty style value
prints as `0`. -/
def orZero : Option String → String
  | some s => if s = "" then "0" else s
  | none => "0"

/-- The margin shorthand assembled by `MarginFormatter.render`:
`[marginTop, marginRight, marginLeft, marginBottom].map(i => i || 0).join(' ')`
(margin.formatter.ts lines 38-43). -/
def marginString (d : FormatAbstractData) : String :=
  String.intercalate " "
    ([d.stylesGet "marginTop", d.stylesGet "marginRight",
      d.stylesGet "marginLeft", d.stylesGet "marginBottom"].map orZero)

/-- Result of `MarginFormatter.render`.  `nullMutated e` embeds the code path
that mutates the supplied existing element in place (its updated value is `e`)
and returns `null`; `childSlot e` embeds `return new ChildSlotMode(e)`. -/
inductive MarginRenderResult where
  | nullMutated (e : VElement)
  | childSlot (e : VElement)
deriving DecidableEq

/-- Embedding of `MarginFormatter.render` (margin.formatter.ts lines 37-51), parametrized
by the formatter's tag set (`inlineTags` or `blockTags`). -/
def marginRender (tags : List String) (d : FormatAbstractData)
    (existingElement : Option VElement) : MarginRenderResult :=
  match existingElement with
  | some e =>
    if regTest tags e.tagName then
      MarginRenderResult.nullMutated (e.stylesSet "margin" (marginString d))
    else
      MarginRenderResult.childSlot
        ((VElement.mk "span" []).stylesSet "margin" (marginString d))
  | none =>
    MarginRenderResult.childSlot
      ((VElement.mk "span" []).stylesSet "margin" (marginString d))

/-- C2: for abstract data whose styles set only `marginLeft = "10px"` among
the margin keys, the assembled margin shorthand is exactly `"0 0 10px 0"`
(order top, right, left, bottom; missing values replaced by 0); with no
matching existing element the result is a fresh `<span>` carrying that margin
string as a child slot, and with a matching existing element the element is
mutated in place and `null` is returned (no new DOM layer). -/
theorem claim_C2_margin_render (tags : List String) (d : FormatAbstractData)
    (hL : d.stylesGet "marginLeft" = some "10px")
    (hT : d.stylesGet "marginTop" = none)
    (hR : d.stylesGet "marginRight" = none)
    (hB : d.stylesGet "marginBottom" = none) :
    marginString d = "0 0 10px 0" ∧
      marginRender tags d none =
        MarginRenderResult.childSlot ⟨"span", [("margin", "0 0 10px 0")]⟩ ∧
      (∀ e : VElement, regTest tags e.tagName = false →
        marginRender tags d (some e) =
          MarginRenderResult.childSlot ⟨"span", [("margin", "0 0 10px 0")]⟩) ∧
      (∀ e : VElement, regTest tags e.tagName = true →
        marginRender tags d (some e) =
          MarginRenderResult.nullMutated (e.stylesSet "margin" "0 0 10px 0")) := by
  have hm : marginString d = "0 0 10px 0" := by
    rw [marginString, hL, hT, hR, hB]
    rfl
  refine ⟨hm, ?_, ?_, ?_⟩
  · simp [marginRender, hm, VElement.stylesSet]
  · intro e he
    simp [marginRender, hm, he, VElement.stylesSet]
  · intro e he
    simp [marginRender, hm, he]

/-- Witness for C2 at concrete abstract data and elements. -/
theorem claim_C2_margin_render_witness :
    (FormatAbstractData.stylesGet ⟨"p", [], [("marginLeft", "10px")], []⟩
        "marginLeft" = some "10px") ∧
      marginString ⟨"p", [], [("marginLeft", "10px")], []⟩ = "0 0 10px 0" ∧
      marginRender inlineTags ⟨"p", [], [("marginLeft", "10px")], []⟩ none =
        MarginRenderResult.childSlot ⟨"span", [("margin", "0 0 10px 0")]⟩ ∧
      marginRender inlineTags ⟨"p", [], [("marginLeft", "10px")], []⟩
          (some ⟨"em", []⟩) =
        MarginRenderResult.nullMutated ⟨"em", [("margin", "0 0 10px 0")]⟩ := by
  have h := claim_C2_margin_render inlineTags ⟨"p", [], [("marginLeft", "10px")], []⟩
    rfl rfl rfl rfl
  refine ⟨rfl, h.1, h.2.1, ?_⟩
  have h2 := h.2.2.2 ⟨"em", []⟩ (by decide)
  rw [h2]
  rfl

/-- A rendered DOM node in the element store: tag name, the virtual-node
back-reference stashed on it as the `VIRTUAL_NODE` property, and the ids of
its children. -/
structure RElem where
  tag : String
  vNode : Option Nat
  children : List Nat
deriving DecidableEq

/-- Element store for `Single.render`: DOM nodes identified by their index. -/
structure RenderState where
  elems : List RElem
deriving DecidableEq

/-- Embedding of `document.createElement` and `document.createDocumentFragment`: allocate a
fresh childless node (tagged with `v` right away when the renderer tags it)
and return its id. -/
def createElem (st : RenderState) (tag : String) (v : Option Nat) :
    RenderState × Nat :=
  (⟨st.elems ++ [⟨tag, v, []⟩]⟩, st.elems.length)

/-- Embedding of `parent.appendChild(child)` in the store model. -/
def appendChild (st : RenderState) (parent child : Nat) : RenderState :=
  match st.elems[parent]? with
  | some e => ⟨st.elems.set parent { e with children := e.children ++ [child] }⟩
  | none => st

/-- What one applicable format's `execCommand.render` returned inside
`Single.render`'s reduce: a `ReplaceModel` whose replacement element has the
given tag, a `ChildSlotModel` whose slot element has the given tag, or
nothing (the format has no handler, or `render` returned neither model). -/
inductive RenderModel where
  | replace (tag : String)
  | childSlot (tag : String)
  | noModel
deriving DecidableEq

/-- One step of the reduce in `Single.render` (single.ts lines 68-90): a
`ReplaceModel` discards the accumulated node, tags the replacement with the
virtual node and makes it the accumulator; a `ChildSlotModel` appends the
slot element to the accumulated node, tags it and makes it the accumulator;
otherwise the accumulator is returned unchanged. -/
def renderFoldStep (vid : Nat) (acc : RenderState × Nat) (rm : RenderModel) :
    RenderState × Nat :=
  match rm with
  | RenderModel.noModel => acc
  | RenderModel.replace tag => createElem acc.1 tag (some vid)
  | RenderModel.childSlot tag =>
    (appendChild (createElem acc.1 tag (some vid)).1 acc.2
        (createElem acc.1 tag (some vid)).2,
      (createElem acc.1 tag (some vid)).2)

/-- Embedding of `Single.render` (single.ts lines 57-95): create the host document
fragment, create the bare element for the node's tag and tag it with the
virtual node, fold the render models of the applicable formats over it, and
append the final accumulated node to the host.  Returns the final state, the
host fragment id and the final accumulator id. -/
def singleRender (tagName : String) (vid : Nat) (models : List RenderModel) :
    RenderState × Nat × Nat :=
  let h0 := createElem ⟨[]⟩ "#document-fragment" none
  let e0 := createElem h0.1 tagName (some vid)
  let folded := models.foldl (renderFoldStep vid) (e0.1, e0.2)
  (appendChild folded.1 h0.2 folded.2, h0.2, folded.2)

/-- Invariant of the reduce in `Single.render`: the host fragment sits
untouched and untagged at id 0, the accumulator is a live non-host node, and
every non-host node carries the virtual-node tag. -/
def RenderInv (vid : Nat) (st : RenderState) (n : Nat) : Prop :=
  st.elems[0]? = some ⟨"#document-fragment", none, []⟩ ∧
    1 ≤ n ∧ n < st.elems.length ∧
    ∀ i e, st.elems[i]? = some e → i ≠ 0 → e.vNode = some vid

theorem renderFoldStep_inv {vid : Nat} {st : RenderState} {n : Nat}
    (h : RenderInv vid st n) (rm : RenderModel) :
    RenderInv vid (renderFoldStep vid (st, n) rm).1 (renderFoldStep vid (st, n) rm).2 := by
  obtain ⟨h0, h1, h2, h3⟩ := h
  cases rm with
  | noModel => exact ⟨h0, h1, h2, h3⟩
  | replace tag =>
    have helems : (renderFoldStep vid (st, n) (RenderModel.replace tag)).1.elems
        = st.elems ++ [(⟨tag, some vid, []⟩ : RElem)] := rfl
    have hacc : (renderFoldStep vid (st, n) (RenderModel.replace tag)).2
        = st.elems.length := rfl
    refine ⟨?_, ?_, ?_, ?_⟩
    · rw [helems, List.getElem?_append_left (by omega)]
      exact h0
    · rw [hacc]; omega
    · rw [hacc, helems]; simp
    · intro i e he hi
      rw [helems] at he
      rcases Nat.lt_trichotomy i st.elems.length with hlt | heq | hgt
      · rw [List.getElem?_append_left hlt] at he
        exact h3 i e he hi
      · subst heq
        simp at he
        rw [← he]
      · rw [List.getElem?_eq_none (by simp; omega)] at he
        cases he
  | childSlot tag =>
    have hne : st.elems[n]? ≠ none := by
      rw [List.getElem?_eq_getElem h2]
      simp
    obtain ⟨en, hen⟩ := Option.ne_none_iff_exists'.mp hne
    have happ : (st.elems ++ [(⟨tag, some vid, []⟩ : RElem)])[n]? = some en := by
      rw [List.getElem?_append_left h2]
      exact hen
    have hstep : (renderFoldStep vid (st, n) (RenderModel.childSlot tag)).1.elems
        = (st.elems ++ [(⟨tag, some vid, []⟩ : RElem)]).set n
            { en with children := en.children ++ [st.elems.length] } := by
      show (appendChild ⟨st.elems ++ [(⟨tag, some vid, []⟩ : RElem)]⟩ n
        st.elems.length).elems = _
      rw [appendChild]
      show (match (st.elems ++ [(⟨tag, some vid, []⟩ : RElem)])[n]? with
        | some e => (⟨(st.elems ++ [(⟨tag, some vid, []⟩ : RElem)]).set n
            { e with children := e.children ++ [st.elems.length] }⟩ : RenderState)
        | none => ⟨st.elems ++ [(⟨tag, some vid, []⟩ : RElem)]⟩).elems = _
      rw [happ]
    have hacc : (renderFoldStep vid (st, n) (RenderModel.childSlot tag)).2
        = st.elems.length := rfl
    refine ⟨?_, ?_, ?_, ?_⟩
    · rw [hstep, List.getElem?_set_ne (by omega), List.getElem?_append_left (by omega)]
      exact h0
    · rw [hacc]; omega
    · rw [hacc, hstep]
      simp
    · intro i e he hi
      rw [hstep] at he
      by_cases hin : i = n
      · subst hin
        rw [List.getElem?_set_self (by simp; omega)] at he
        obtain rfl := Option.some_injective _ he
        exact h3 i en hen hi
      · rw [List.getElem?_set_ne (fun hq => hin hq.symm)] at he
        rcases Nat.lt_trichotomy i st.elems.length with hlt | heq | hgt
        · rw [List.getElem?_append_left hlt] at he
          exact h3 i e he hi
        · subst heq
          simp at he
          rw [← he]
        · rw [List.getElem?_eq_none (by simp; omega)] at he
          cases he

theorem foldl_renderInv (vid : Nat) :
    ∀ (models : List RenderModel) (st : RenderState) (n : Nat),
      RenderInv vid st n →
      RenderInv vid (models.foldl (renderFoldStep vid) (st, n)).1
        (models.foldl (renderFoldStep vid) (st, n)).2
  | [], _, _, h => h
  | rm :: rest, st, n, h => by
    rw [List.foldl_cons]
    have hstep := renderFoldStep_inv h rm
    have := foldl_renderInv vid rest (renderFoldStep vid (st, n) rm).1
      (renderFoldStep vid (st, n) rm).2 hstep
    simpa using this

/-- C3: `Single.render` computes its result as a fold over the node's
applicable formats starting from a bare element of the node's `tagName`: a
`ReplaceModel` result discards the accumulated node and replaces it with the
replacement element, a `ChildSlotModel` result is appended as a child of the
accumulated node and becomes the new accumulator, every replace/slot element
so produced (and the bare element) carries the same virtual-node
back-reference, and the final accumulated node is the sole child of the
returned document-fragment host. -/
theorem claim_C3_single_render_fold (tagName : String) (vid : Nat)
    (models : List RenderModel) :
    (((singleRender tagName vid models).1.elems[(singleRender tagName vid models).2.1]?).map
        RElem.children = some [(singleRender tagName vid models).2.2]) ∧
      (∀ i e, (singleRender tagName vid models).1.elems[i]? = some e →
        i ≠ (singleRender tagName vid models).2.1 → e.vNode = some vid) ∧
      (∀ (st : RenderState) (n : Nat),
        renderFoldStep vid (st, n) RenderModel.noModel = (st, n)) ∧
      (∀ (st : RenderState) (n : Nat) (tag : String),
        renderFoldStep vid (st, n) (RenderModel.replace tag)
          = (⟨st.elems ++ [⟨tag, some vid, []⟩]⟩, st.elems.length)) ∧
      (∀ (st : RenderState) (n : Nat) (tag : String) (e : RElem),
        st.elems[n]? = some e →
        (renderFoldStep vid (st, n) (RenderModel.childSlot tag)).2 = st.elems.length ∧
        (renderFoldStep vid (st, n) (RenderModel.childSlot tag)).1.elems[n]?
          = some { e with children := e.children ++ [st.elems.length] } ∧
        (renderFoldStep vid (st, n) (RenderModel.childSlot tag)).1.elems[st.elems.length]?
          = some ⟨tag, some vid, []⟩) := by
  have hinv : RenderInv vid
      ⟨[⟨"#document-fragment", none, []⟩, ⟨tagName, some vid, []⟩]⟩ 1 := by
    refine ⟨rfl, Nat.le_refl 1, by simp, ?_⟩
    intro i e he hi
    rcases i with _ | _ | k
    · exact absurd rfl hi
    · simp at he
      rw [← he]
    · simp at he
  have hsr : singleRender tagName vid models
      = (appendChild (models.foldl (renderFoldStep vid)
            (⟨[⟨"#document-fragment", none, []⟩, ⟨tagName, some vid, []⟩]⟩, 1)).1 0
          (models.foldl (renderFoldStep vid)
            (⟨[⟨"#document-fragment", none, []⟩, ⟨tagName, some vid, []⟩]⟩, 1)).2,
        0,
        (models.foldl (renderFoldStep vid)
          (⟨[⟨"#document-fragment", none, []⟩, ⟨tagName, some vid, []⟩]⟩, 1)).2) := rfl
  obtain ⟨hf0, hf1, hf2, hf3⟩ := foldl_renderInv vid models _ 1 hinv
  rw [hsr]
  set F := models.foldl (renderFoldStep vid)
    (⟨[⟨"#document-fragment", none, []⟩, ⟨tagName, some vid, []⟩]⟩, 1) with hF
  have happf : (appendChild F.1 0 F.2).elems
      = F.1.elems.set 0 ⟨"#document-fragment", none, [F.2]⟩ := by
    rw [appendChild, hf0]
    rfl
  refine ⟨?_, ?_, ?_, ?_, ?_⟩
  · show ((appendChild F.1 0 F.2).elems[0]?).map RElem.children = some [F.2]
    rw [happf, List.getElem?_set_self (by omega)]
    rfl
  · intro i e he hi
    show e.vNode = some vid
    rw [happf, List.getElem?_set_ne (fun hq => hi hq.symm)] at he
    exact hf3 i e he hi
  · intro st n
    rfl
  · intro st n tag
    rfl
  · intro st n tag e he
    have hn : n < st.elems.length := by
      by_contra hcon
      rw [List.getElem?_eq_none (by omega)] at he
      cases he
    have happ2 : (st.elems ++ [(⟨tag, some vid, []⟩ : RElem)])[n]? = some e := by
      rw [List.getElem?_append_left hn]
      exact he
    have hstep : (renderFoldStep vid (st, n) (RenderModel.childSlot tag)).1.elems
        = (st.elems ++ [(⟨tag, some vid, []⟩ : RElem)]).set n
            { e with children := e.children ++ [st.elems.length] } := by
      show (appendChild ⟨st.elems ++ [(⟨tag, some vid, []⟩ : RElem)]⟩ n
        st.elems.length).elems = _
      rw [appendChild, happ2]
    refine ⟨rfl, ?_, ?_⟩
    · rw [hstep, List.getElem?_set_self (by simp; omega)]
    · rw [hstep, List.getElem?_set_ne (by omega)]
      simp

/-- Witness for C3: the child-slot step hypothesis is satisfiable; the
theorem applied at a concrete render run. -/
theorem claim_C3_single_render_fold_witness :
    (((singleRender "img" 5 [RenderModel.childSlot "strong",
        RenderModel.replace "div", RenderModel.noModel]).1.elems[(singleRender "img" 5
          [RenderModel.childSlot "strong", RenderModel.replace "div",
            RenderModel.noModel]).2.1]?).map RElem.children
      = some [(singleRender "img" 5 [RenderModel.childSlot "strong",
          RenderModel.replace "div", RenderModel.noModel]).2.2]) ∧
      ((⟨[⟨"img", some 5, []⟩]⟩ : RenderState).elems[0]? = some ⟨"img", some 5, []⟩) ∧
      (renderFoldStep 5 ((⟨[⟨"img", some 5, []⟩]⟩ : RenderState), 0)
          (RenderModel.childSlot "em")).1.elems[0]?
        = some ⟨"img", some 5, [1]⟩ := by
  refine ⟨(claim_C3_single_render_fold "img" 5 [RenderModel.childSlot "strong",
    RenderModel.replace "div", RenderModel.noModel]).1, rfl, ?_⟩
  have h := ((claim_C3_single_render_fold "img" 5 []).2.2.2.2
    (⟨[⟨"img", some 5, []⟩]⟩ : RenderState) 0 "em" ⟨"img", some 5, []⟩ rfl).2.1
  rw [h]
  rfl

/-- A native DOM node as seen by the selection bridge: an element with child
nodes, or a text node. -/
inductive DNode where
  | element (tag : String) (children : List DNode)
  | text (content : String)

/-- The test `nodeType === Node.TEXT_NODE`. -/
def DNode.isText : DNode → Bool
  | DNode.text _ => true
  | DNode.element _ _ => false

/-- The focus fix-up at the start of `Input.updateCursorPosition` (part_000
lines 196-202): when the native focus node is an element whose child at the
focus offset is a text node, the position is retargeted to that text node at
offset 0; otherwise it is kept unchanged. -/
def fixupPosition (container : DNode) (offset : Nat) : DNode × Nat :=
  match container with
  | DNode.element tag children =>
    match children[offset]? with
    | some c => if c.isText then (c, 0) else (DNode.element tag children, offset)
    | none => (DNode.element tag children, offset)
  | DNode.text s => (DNode.text s, offset)

/-- C4: for every native selection whose focus node is an element node with
focus offset `k`, if the child node at index `k` of that element is a text
node, then the cursor-position computation retargets the position to that
text node at offset 0. -/
theorem claim_C4_selection_fixup (tag : String) (children : List DNode) (k : Nat)
    (c : DNode) (hc : children[k]? = some c) (ht : c.isText = true) :
    fixupPosition (DNode.element tag children) k = (c, 0) := by
  rw [fixupPosition, hc]
  show (if c.isText = true then (c, 0) else (DNode.element tag children, k)) = (c, 0)
  rw [if_pos ht]

/-- Witness for C4 at a concrete element whose child 0 is a text node. -/
theorem claim_C4_selection_fixup_witness :
    ([DNode.text "ab"][0]? = some (DNode.text "ab")) ∧
      (DNode.text "ab").isText = true ∧
      fixupPosition (DNode.element "p" [DNode.text "ab"]) 0 = (DNode.text "ab", 0) :=
  ⟨rfl, rfl, claim_C4_selection_fixup "p" [DNode.text "ab"] 0 (DNode.text "ab") rfl rfl⟩

/-- The numeric value of a decimal digit character, if it is one. -/
def digitVal (c : Char) : Option Nat :=
  if 48 ≤ c.toNat ∧ c.toNat ≤ 57 then some (c.toNat - 48) else none

/-- Split the longest run of decimal digits off the front of the characters. -/
def takeDigits : List Char → (List Nat × List Char)
  | [] => ([], [])
  | c :: rest =>
    match digitVal c with
    | some d =>
      ((d :: (takeDigits rest).1), (takeDigits rest).2)
    | none => ([], c :: rest)

/-- Value of a digit run read most-significant first. -/
def digitsToNat (ds : List Nat) : Nat :=
  ds.foldl (fun acc d => acc * 10 + d) 0

/-- Parse an optional sign followed by a decimal numeral with an optional
fractional part (`12`, `12.`, `12.5`, `.5`) off the front of the characters,
returning its rational value and the unconsumed rest.  This is the numeral
grammar shared by the JS numeric coercion `+s` and `parseFloat` on the
computed-style strings the cursor code reads (those carry no padding,
exponent or hex forms). -/
def parseNum (cs : List Char) : Option (ℚ × List Char) :=
  parseNumSigned cs
where
  parseNumBody (cs1 : List Char) : Option (ℚ × List Char) :=
    match takeDigits cs1 with
    | (ips, cs2) =>
      match cs2 with
      | '.' :: cs3 =>
        match takeDigits cs3 with
        | (fps, cs4) =>
          if ips.isEmpty ∧ fps.isEmpty then none
          else some ((digitsToNat ips : ℚ) +
            (digitsToNat fps : ℚ) / ((10 : ℚ) ^ fps.length), cs4)
      | _ =>
        if ips.isEmpty then none
        else some ((digitsToNat ips : ℚ), cs2)
  parseNumSigned : List Char → Option (ℚ × List Char)
    | '-' :: rest => (parseNumBody rest).map (fun pr => (-pr.1, pr.2))
    | '+' :: rest => parseNumBody rest
    | cs => parseNumBody cs

/-- JS numeric coercion `+s` restricted to such strings: the empty string
coerces to 0, otherwise the whole string must be a numeral; `none` is NaN. -/
def toNumberOpt (s : String) : Option ℚ :=
  if s = "" then some 0
  else
    match parseNum s.data with
    | some (q, []) => some q
    | _ => none

/-- JS `parseFloat`: the longest numeral at the front of the string; `none`
is NaN. -/
def parseFloatOpt (s : String) : Option ℚ :=
  match parseNum s.data with
  | some (q, _) => some q
  | none => none

/-- The cursor box height computation of `Input.updateCursorPosition`
(part_000 lines 214-224): if `+lineHeight` is not NaN the height is
`parseFloat(fontSize) * parseFloat(lineHeight)`; otherwise if
`parseFloat(lineHeight)` is not NaN the height is that float; otherwise the
height is `parseFloat(fontSize)`.  `none` stands for NaN. -/
def computeCursorHeight (fontSize lineHeight : String) : Option ℚ :=
  if (toNumberOpt lineHeight).isSome then
    match parseFloatOpt fontSize, parseFloatOpt lineHeight with
    | some a, some b => some (a * b)
    | _, _ => none
  else
    match parseFloatOpt lineHeight with
    | some f => some f
    | none => parseFloatOpt fontSize

/-- C7: the cursor box height is computed from the focus position's computed
style by this case analysis: if the line-height string coerces to a number
(unitless numeric), the height is fontSize times lineHeight; otherwise, if
the line-height string parses as a float (has units), the height is that
float; otherwise the height falls back to the parsed font-size. -/
theorem claim_C7_cursor_height (fontSize lineHeight : String) :
    (∀ q a, lineHeight ≠ "" → toNumberOpt lineHeight = some q →
      parseFloatOpt fontSize = some a →
      computeCursorHeight fontSize lineHeight = some (a * q)) ∧
      (∀ f, toNumberOpt lineHeight = none → parseFloatOpt lineHeight = some f →
        computeCursorHeight fontSize lineHeight = some f) ∧
      (toNumberOpt lineHeight = none → parseFloatOpt lineHeight = none →
        computeCursorHeight fontSize lineHeight = parseFloatOpt fontSize) := by
  refine ⟨?_, ?_, ?_⟩
  · intro q a hne htn hpf
    rw [toNumberOpt, if_neg hne] at htn
    cases hp : parseNum lineHeight.data with
    | none => rw [hp] at htn; cases htn
    | some pr =>
      obtain ⟨q2, rest⟩ := pr
      rw [hp] at htn
      cases rest with
      | nil =>
        obtain rfl := Option.some_injective _ htn
        have hsome : (toNumberOpt lineHeight).isSome = true := by
          rw [toNumberOpt, if_neg hne, hp]
          rfl
        have hfl : parseFloatOpt lineHeight = some q2 := by
          rw [parseFloatOpt, hp]
        rw [computeCursorHeight, if_pos hsome, hpf, hfl]
      | cons c cs => exact absurd htn (by simp)
  · intro f htn hpf
    have hns : (toNumberOpt lineHeight).isSome = false := by rw [htn]; rfl
    rw [computeCursorHeight, if_neg (by rw [hns]; simp), hpf]
  · intro htn hpf
    have hns : (toNumberOpt lineHeight).isSome = false := by rw [htn]; rfl
    rw [computeCursorHeight, if_neg (by rw [hns]; simp), hpf]

/-- Witness for C7: all three branches exercised at concrete style strings. -/
theorem claim_C7_cursor_height_witness :
    (toNumberOpt "1.5" = some (3 / 2 : ℚ) ∧ parseFloatOpt "16px" = some 16 ∧
      computeCursorHeight "16px" "1.5" = some 24) ∧
      (toNumberOpt "20px" = none ∧ parseFloatOpt "20px" = some 20 ∧
        computeCursorHeight "16px" "20px" = some 20) ∧
      (toNumberOpt "normal" = none ∧ parseFloatOpt "normal" = none ∧
        computeCursorHeight "16px" "normal" = parseFloatOpt "16px") := by
  have e1 : toNumberOpt "1.5" = some (3 / 2 : ℚ) := by
    simp +decide [toNumberOpt, parseNum, parseNum.parseNumSigned,
      parseNum.parseNumBody, takeDigits, digitVal, digitsToNat]
    norm_num
  have e2 : parseFloatOpt "16px" = some (16 : ℚ) := by
    simp +decide [parseFloatOpt, parseNum, parseNum.parseNumSigned,
      parseNum.parseNumBody, takeDigits, digitVal, digitsToNat]
  have e3 : toNumberOpt "20px" = none := by
    simp +decide [toNumberOpt, parseNum, parseNum.parseNumSigned,
      parseNum.parseNumBody, takeDigits, digitVal, digitsToNat]
  have e4 : parseFloatOpt "20px" = some (20 : ℚ) := by
    simp +decide [parseFloatOpt, parseNum, parseNum.parseNumSigned,
      parseNum.parseNumBody, takeDigits, digitVal, digitsToNat]
  have e5 : toNumberOpt "normal" = none := by
    simp +decide [toNumberOpt, parseNum, parseNum.parseNumSigned,
      parseNum.parseNumBody, takeDigits, digitVal, digitsToNat]
  have e6 : parseFloatOpt "normal" = none := by
    simp +decide [parseFloatOpt, parseNum, parseNum.parseNumSigned,
      parseNum.parseNumBody, takeDigits, digitVal, digitsToNat]
  refine ⟨⟨e1, e2, ?_⟩, ⟨e3, e4, ?_⟩, ⟨e5, e6, ?_⟩⟩
  · have h := (claim_C7_cursor_height "16px" "1.5").1 (3 / 2 : ℚ) 16
      (by decide) e1 e2
    rw [h]
    norm_num
  · exact (claim_C7_cursor_height "16px" "20px").2.1 20 e3 e4
  · exact (claim_C7_cursor_height "16px" "normal").2.2 e5 e6

/-- Computed style of an element as consumed by the cursor placement code. -/
structure ComputedStyle where
  fontSize : String
  lineHeight : String
  color : String

/-- The bounding rectangle of a collapsed range
(`TBRange.getRangePosition`). -/
structure RangeRect where
  left : ℚ
  top : ℚ
  height : ℚ

/-- The DOM facts the cursor placement reads from the host document: the
bounding rectangle of the collapsed range at a position, and the computed
style at the focus node (of the node itself when it is an element, of its
parent when it is a text node, which is how `getComputedStyle` is invoked in
the source). -/
structure DomEnv where
  rangeRect : DNode → Nat → RangeRect
  styleAt : DNode → ComputedStyle

/-- A native selection as consumed by `Input`: `rangeCount`, `isCollapsed`
and the focus position. -/
structure NativeSelection where
  rangeCount : Nat
  isCollapsed : Bool
  focusNode : DNode
  focusOffset : Nat

/-- The observable state of `Input` (part_000 lines 92-256): cursor
visibility and blink timer, the overlay geometry, caret color, the text
input's font, the stored selection, and a count of `input.focus()` calls. -/
structure InputState where
  display : Bool
  timerOn : Bool
  selection : Option NativeSelection
  left : ℚ
  top : ℚ
  boxHeight : Option ℚ
  caretColor : String
  inputFontSize : String
  focusCount : Nat

/-- Embedding of `Input.hide`: hide the cursor and clear the blink timer. -/
def hideCursor (st : InputState) : InputState :=
  { st with display := false, timerOn := false }

/-- Embedding of `Input.show`: show the cursor, restart the blink timer and focus the
input. -/
def showCursor (st : InputState) : InputState :=
  { st with display := true, timerOn := true, focusCount := st.focusCount + 1 }

/-- Embedding of `Input.updateCursorPosition` (part_000 lines 186-239): return unchanged
when there is no stored selection or its `rangeCount` is zero; otherwise fix
up the focus position, read the range rectangle and computed style, compute
the box height (`none` is NaN, and `Math.max`/the comparison with NaN keep
NaN semantics) and update the overlay geometry, caret color and input font. -/
def updateCursorPosition (env : DomEnv) (st : InputState) : InputState :=
  match st.selection with
  | none => st
  | some sel =>
    if sel.rangeCount = 0 then st
    else
      match fixupPosition sel.focusNode sel.focusOffset with
      | (node, off) =>
        match env.rangeRect node off, env.styleAt node with
        | rect, sty =>
          match computeCursorHeight sty.fontSize sty.lineHeight with
          | some h =>
            { st with
              left := rect.left,
              top := if rect.height < h then rect.top - (h - rect.height) / 2
                else rect.top,
              boxHeight := some (max h rect.height),
              caretColor := sty.color,
              inputFontSize := sty.fontSize }
          | none =>
            { st with
              left := rect.left,
              top := rect.top,
              boxHeight := none,
              caretColor := sty.color,
              inputFontSize := sty.fontSize }

/-- Embedding of `Input.updateStateBySelection` (part_000 lines 158-171): store the
selection; with zero ranges hide the cursor and return; otherwise update the
cursor position, show the cursor when the selection is collapsed (hide it
otherwise), and focus the input. -/
def updateStateBySelection (env : DomEnv) (sel : NativeSelection)
    (st : InputState) : InputState :=
  if sel.rangeCount = 0 then hideCursor { st with selection := some sel }
  else
    let st2 := updateCursorPosition env { st with selection := some sel }
    let st3 := if sel.isCollapsed then showCursor st2 else hideCursor st2
    { st3 with focusCount := st3.focusCount + 1 }

/-- C8: for every selection whose `rangeCount` is zero,
`Input.updateStateBySelection` hides the cursor and returns without updating
the cursor position or focusing the input, and `Input.updateCursorPosition`
returns without any effect (both are total functions, so no error is raised
in either case). -/
theorem claim_C8_zero_ranges_noop (env : DomEnv) (sel : NativeSelection)
    (st : InputState) (h : sel.rangeCount = 0) :
    updateStateBySelection env sel st = hideCursor { st with selection := some sel } ∧
      (updateStateBySelection env sel st).display = false ∧
      (updateStateBySelection env sel st).left = st.left ∧
      (updateStateBySelection env sel st).top = st.top ∧
      (updateStateBySelection env sel st).boxHeight = st.boxHeight ∧
      (updateStateBySelection env sel st).caretColor = st.caretColor ∧
      (updateStateBySelection env sel st).inputFontSize = st.inputFontSize ∧
      (updateStateBySelection env sel st).focusCount = st.focusCount ∧
      (∀ st2 : InputState, st2.selection = none → updateCursorPosition env st2 = st2) ∧
      (∀ st2 : InputState, st2.selection = some sel → updateCursorPosition env st2 = st2) := by
  have hu : updateStateBySelection env sel st
      = hideCursor { st with selection := some sel } := by
    rw [updateStateBySelection, if_pos h]
  refine ⟨hu, ?_, ?_, ?_, ?_, ?_, ?_, ?_, ?_, ?_⟩
  · rw [hu]; rfl
  · rw [hu]; rfl
  · rw [hu]; rfl
  · rw [hu]; rfl
  · rw [hu]; rfl
  · rw [hu]; rfl
  · rw [hu]; rfl
  · intro st2 h2
    rw [updateCursorPosition, h2]
  · intro st2 h2
    rw [updateCursorPosition, h2]
    show (if sel.rangeCount = 0 then st2 else _) = st2
    rw [if_pos h]

/-- Witness for C8 at a concrete zero-range selection, environment and
state. -/
theorem claim_C8_zero_ranges_noop_witness :
    ((⟨0, true, DNode.text "x", 0⟩ : NativeSelection).rangeCount = 0) ∧
      updateStateBySelection
          ⟨fun _ _ => ⟨0, 0, 0⟩, fun _ => ⟨"16px", "1.5", "red"⟩⟩
          ⟨0, true, DNode.text "x", 0⟩
          ⟨true, true, none, 1, 2, none, "blue", "12px", 3⟩
        = hideCursor ⟨true, true, some ⟨0, true, DNode.text "x", 0⟩, 1, 2, none,
            "blue", "12px", 3⟩ ∧
      (updateStateBySelection
          ⟨fun _ _ => ⟨0, 0, 0⟩, fun _ => ⟨"16px", "1.5", "red"⟩⟩
          ⟨0, true, DNode.text "x", 0⟩
          ⟨true, true, none, 1, 2, none, "blue", "12px", 3⟩).focusCount = 3 := by
  have h := claim_C8_zero_ranges_noop
    ⟨fun _ _ => ⟨0, 0, 0⟩, fun _ => ⟨"16px", "1.5", "red"⟩⟩
    ⟨0, true, DNode.text "x", 0⟩
    ⟨true, true, none, 1, 2, none, "blue", "12px", 3⟩ rfl
  exact ⟨rfl, h.1, h.2.2.2.2.2.2.2.1⟩

/-- The `CommonMatchDelta` reduced by `Editor.updateToolbarStatus`: the
boolean summary flags plus the payload fields taken from the last range
(payload types kept opaque as ids). -/
structure CommonMatchDelta where
  inSingleContainer : Bool
  overlap : Bool
  contain : Bool
  container : Nat
  config : Nat
  disable : Bool
  range : Nat
deriving DecidableEq

/-- The reducer of `Editor.updateToolbarStatus` (part_000 lines 419-429):
logical AND for `inSingleContainer`/`overlap`, logical OR for
`contain`/`disable`, and `container`/`config`/`range` from the current
(right) value. -/
def reduceDelta (a b : CommonMatchDelta) : CommonMatchDelta :=
  { inSingleContainer := a.inSingleContainer && b.inSingleContainer,
    overlap := a.overlap && b.overlap,
    contain := a.contain || b.contain,
    container := b.container,
    config := b.config,
    disable := a.disable || b.disable,
    range := b.range }

/-- The delta `Editor.updateToolbarStatus` passes to one handler's
`updateStatus`: `ranges.map(range => handler.matcher.match(editor, range))`
reduced with `reduceDelta`.  `matchF` stands for
`handler.matcher.match(this.editor, ·)` over range ids, and the selected
ranges are `r :: rs` (JS `Array.reduce` without a seed needs at least one
element). -/
def updateToolbarDelta (matchF : Nat → CommonMatchDelta) (r : Nat)
    (rs : List Nat) : CommonMatchDelta :=
  (rs.map matchF).foldl reduceDelta (matchF r)

theorem foldl_reduceDelta_inSingle :
    ∀ (ds : List CommonMatchDelta) (a : CommonMatchDelta),
      (List.foldl reduceDelta a ds).inSingleContainer
        = (a.inSingleContainer && ds.all (fun d => d.inSingleContainer))
  | [], a => by simp
  | d :: t, a => by
    rw [List.foldl_cons, foldl_reduceDelta_inSingle t]
    simp [reduceDelta, Bool.and_assoc]

theorem foldl_reduceDelta_overlap :
    ∀ (ds : List CommonMatchDelta) (a : CommonMatchDelta),
      (List.foldl reduceDelta a ds).overlap = (a.overlap && ds.all (fun d => d.overlap))
  | [], a => by simp
  | d :: t, a => by
    rw [List.foldl_cons, foldl_reduceDelta_overlap t]
    simp [reduceDelta, Bool.and_assoc]

theorem foldl_reduceDelta_contain :
    ∀ (ds : List CommonMatchDelta) (a : CommonMatchDelta),
      (List.foldl reduceDelta a ds).contain = (a.contain || ds.any (fun d => d.contain))
  | [], a => by simp
  | d :: t, a => by
    rw [List.foldl_cons, foldl_reduceDelta_contain t]
    simp [reduceDelta, Bool.or_assoc]

theorem foldl_reduceDelta_disable :
    ∀ (ds : List CommonMatchDelta) (a : CommonMatchDelta),
      (List.foldl reduceDelta a ds).disable = (a.disable || ds.any (fun d => d.disable))
  | [], a => by simp
  | d :: t, a => by
    rw [List.foldl_cons, foldl_reduceDelta_disable t]
    simp [reduceDelta, Bool.or_assoc]

theorem foldl_reduceDelta_container :
    ∀ (ds : List CommonMatchDelta) (a : CommonMatchDelta),
      (List.foldl reduceDelta a ds).container
        = (ds.map (fun d => d.container)).getLastD a.container
  | [], a => rfl
  | d :: t, a => by
    rw [List.foldl_cons, foldl_reduceDelta_container t, List.map_cons, List.getLastD_cons]
    rfl

theorem foldl_reduceDelta_config :
    ∀ (ds : List CommonMatchDelta) (a : CommonMatchDelta),
      (List.foldl reduceDelta a ds).config
        = (ds.map (fun d => d.config)).getLastD a.config
  | [], a => rfl
  | d :: t, a => by
    rw [List.foldl_cons, foldl_reduceDelta_config t, List.map_cons, List.getLastD_cons]
    rfl

theorem foldl_reduceDelta_range :
    ∀ (ds : List CommonMatchDelta) (a : CommonMatchDelta),
      (List.foldl reduceDelta a ds).range
        = (ds.map (fun d => d.range)).getLastD a.range
  | [], a => rfl
  | d :: t, a => by
    rw [List.foldl_cons, foldl_reduceDelta_range t, List.map_cons, List.getLastD_cons]
    rfl

theorem all_map_fun {δ ε : Type} (f : δ → ε) (p : ε → Bool) :
    ∀ l : List δ, (l.map f).all p = l.all (fun x => p (f x))
  | [] => rfl
  | a :: t => by
    rw [List.map_cons, List.all_cons, List.all_cons, all_map_fun f p t]

theorem any_map_fun {δ ε : Type} (f : δ → ε) (p : ε → Bool) :
    ∀ l : List δ, (l.map f).any p = l.any (fun x => p (f x))
  | [] => rfl
  | a :: t => by
    rw [List.map_cons, List.any_cons, List.any_cons, any_map_fun f p t]

theorem getLastD_map {δ ε : Type} (g : δ → ε) :
    ∀ (l : List δ) (d : δ), (l.map g).getLastD (g d) = g (l.getLastD d)
  | [], _ => rfl
  | a :: t, d => by
    rw [List.map_cons, List.getLastD_cons, List.getLastD_cons, getLastD_map g t]

/-- C6: for every non-empty list of selected ranges, the delta passed to each
handler's `updateStatus` is the reduction of the per-range `matcher.match`
results using logical AND for `inSingleContainer` and `overlap`, logical OR
for `contain` and `disable`, with `container`, `config` and `range` taken
from the last range's result. -/
theorem claim_C6_toolbar_delta_reduction (matchF : Nat → CommonMatchDelta)
    (r : Nat) (rs : List Nat) :
    (updateToolbarDelta matchF r rs).inSingleContainer
        = (r :: rs).all (fun x => (matchF x).inSingleContainer) ∧
      (updateToolbarDelta matchF r rs).overlap
        = (r :: rs).all (fun x => (matchF x).overlap) ∧
      (updateToolbarDelta matchF r rs).contain
        = (r :: rs).any (fun x => (matchF x).contain) ∧
      (updateToolbarDelta matchF r rs).disable
        = (r :: rs).any (fun x => (matchF x).disable) ∧
      (updateToolbarDelta matchF r rs).container
        = (matchF (rs.getLastD r)).container ∧
      (updateToolbarDelta matchF r rs).config = (matchF (rs.getLastD r)).config ∧
      (updateToolbarDelta matchF r rs).range = (matchF (rs.getLastD r)).range := by
  refine ⟨?_, ?_, ?_, ?_, ?_, ?_, ?_⟩
  · rw [updateToolbarDelta, foldl_reduceDelta_inSingle, all_map_fun, List.all_cons]
  · rw [updateToolbarDelta, foldl_reduceDelta_overlap, all_map_fun, List.all_cons]
  · rw [updateToolbarDelta, foldl_reduceDelta_contain, any_map_fun, List.any_cons]
  · rw [updateToolbarDelta, foldl_reduceDelta_disable, any_map_fun, List.any_cons]
  · rw [updateToolbarDelta, foldl_reduceDelta_container, List.map_map]
    exact getLastD_map _ rs r
  · rw [updateToolbarDelta, foldl_reduceDelta_config, List.map_map]
    exact getLastD_map _ rs r
  · rw [updateToolbarDelta, foldl_reduceDelta_range, List.map_map]
    exact getLastD_map _ rs r

/-- The abstract editing world a commander may affect: the abstract content
tree and the per-node format matrices (both opaque here), plus the console
log. -/
structure EditorWorld where
  tree : Nat
  matrices : List (Nat × List (FormatRange Nat))
  log : List Nat
deriving DecidableEq

/-- Embedding of `TableCommander.command` (table.commander.ts lines 10-12): its whole body
is `console.log(selection)`. -/
def tableCommanderCommand (selection : Nat) (overlap : Bool) (w : EditorWorld) :
    EditorWorld :=
  { w with log := w.log ++ [selection] }

/-- Embedding of `TableCommander.updateValue` (table.commander.ts lines 7-8): empty
body. -/
def tableCommanderUpdateValue (value : List Nat) (w : EditorWorld) : EditorWorld :=
  w

/-- The commander contract as consumed by `Editor.apply`: whether a command
records an undo snapshot, and the command's action on the document (the
document type is kept abstract; the command receives the range id and its
overlap flag). -/
structure CommanderM (δ : Type) where
  recordHistory : Bool
  command : δ → Nat → Bool → δ

/-- Embedding of `TableCommander` (table.commander.ts lines 4-13): `recordHistory = true`,
`command` only logs the selection. -/
def tableCommander : CommanderM EditorWorld :=
  ⟨true, fun w sel overlap => tableCommanderCommand sel overlap w⟩

/-- Embedding of `ListCommander` (part_002 lines 7-18): `recordHistory = true`, `command`
body empty. -/
def listCommander : CommanderM EditorWorld :=
  ⟨true, fun w _ _ => w⟩

/-- Embedding of `Editor.apply` (part_000 lines 474-484): run the handler's command over
all the selected ranges, then record an undo snapshot
(`this.editor.recordSnapshot()`, which pushes the current document onto the
history stack) exactly when the commander declares `recordHistory`. -/
def editorApply {δ : Type} (cmd : CommanderM δ) (ranges : List Nat)
    (overlapOf : Nat → Bool) (doc : δ) (history : List δ) : δ × List δ :=
  (ranges.foldl (fun d r => cmd.command d r (overlapOf r)) doc,
    if cmd.recordHistory then
      (ranges.foldl (fun d r => cmd.command d r (overlapOf r)) doc) :: history
    else history)

/-- C9: after `Editor.apply` runs the handler's command over all selected
ranges, an undo snapshot is recorded if and only if the commander's
`recordHistory` is true; in particular `TableCommander` and `ListCommander`
declare `recordHistory = true`, so applying them always pushes a snapshot. -/
theorem claim_C9_record_history {δ : Type} (cmd : CommanderM δ)
    (ranges : List Nat) (overlapOf : Nat → Bool) (doc : δ) (history : List δ) :
    ((editorApply cmd ranges overlapOf doc history).2.length
        = history.length + 1 ↔ cmd.recordHistory = true) ∧
      (cmd.recordHistory = false →
        (editorApply cmd ranges overlapOf doc history).2 = history) ∧
      (cmd.recordHistory = true →
        (editorApply cmd ranges overlapOf doc history).2
          = (ranges.foldl (fun d r => cmd.command d r (overlapOf r)) doc) :: history) ∧
      tableCommander.recordHistory = true ∧
      listCommander.recordHistory = true := by
  cases hrec : cmd.recordHistory with
  | true =>
    refine ⟨?_, ?_, ?_, rfl, rfl⟩
    · rw [editorApply, hrec]
      simp
    · intro hfalse
      cases hfalse
    · intro _
      rw [editorApply, hrec]
      simp
  | false =>
    refine ⟨?_, ?_, ?_, rfl, rfl⟩
    · rw [editorApply, hrec]
      simp
    · intro _
      rw [editorApply, hrec]
      simp
    · intro htrue
      cases htrue

/-- Witness for C9: applying the table commander over one range at a
concrete world pushes exactly one snapshot. -/
theorem claim_C9_record_history_witness :
    (editorApply tableCommander [4] (fun _ => false) ⟨0, [], []⟩ []).2.length
      = ([] : List EditorWorld).length + 1 :=
  (claim_C9_record_history tableCommander [4] (fun _ => false)
    ⟨0, [], []⟩ []).1.mpr rfl

/-- C10: for every selection and every value of the overlap flag,
`TableCommander.command` leaves the abstract tree and every format matrix
completely unchanged (its only effect is logging the selection), despite the
commander declaring `recordHistory = true`; likewise
`TableCommander.updateValue` changes nothing for any input. -/
theorem claim_C10_table_commander_frame (selection : Nat) (overlap : Bool)
    (w : EditorWorld) (value : List Nat) :
    (tableCommanderCommand selection overlap w).tree = w.tree ∧
      (tableCommanderCommand selection overlap w).matrices = w.matrices ∧
      (tableCommanderCommand selection overlap w).log = w.log ++ [selection] ∧
      tableCommanderUpdateValue value w = w ∧
      tableCommander.recordHistory = true :=
  ⟨rfl, rfl, rfl, rfl, rfl⟩

/-- Dereference into a heap of abstract-data values (default value for a
dangling reference).  `FormatRange` payloads of a `Single` are references
(indices) into such a heap, so that aliasing and in-place mutation of
`abstractData` are observable. -/
def derefD (heap : List FormatAbstractData) (i : Nat) : FormatAbstractData :=
  (heap[i]?).getD default

/-- One heap extends another: it is at least as long and agrees on all the
old positions. -/
def HeapExt (h1 h2 : List FormatAbstractData) : Prop :=
  h1.length ≤ h2.length ∧ ∀ i, i < h1.length → h2[i]? = h1[i]?

theorem HeapExt.refl_heap (h : List FormatAbstractData) : HeapExt h h :=
  ⟨Nat.le_refl _, fun _ _ => rfl⟩

theorem HeapExt.trans_heap {h1 h2 h3 : List FormatAbstractData}
    (a : HeapExt h1 h2) (b : HeapExt h2 h3) : HeapExt h1 h3 :=
  ⟨Nat.le_trans a.1 b.1, fun i hi => (b.2 i (Nat.lt_of_lt_of_le hi a.1)).trans (a.2 i hi)⟩

theorem HeapExt.deref {h1 h2 : List FormatAbstractData} (h : HeapExt h1 h2)
    {i : Nat} (hi : i < h1.length) : derefD h2 i = derefD h1 i := by
  rw [derefD, derefD, h.2 i hi]

theorem HeapExt.append (h : List FormatAbstractData) (d : FormatAbstractData) :
    HeapExt h (h ++ [d]) := by
  refine ⟨by simp, fun i hi => List.getElem?_append_left hi⟩

/-- Modelled from the spec: `FormatRange.clone()` lives in
`lib/parser/format.ts`, which is not among the provided sources (only its
caller `Single.clone` is); per spec section 4.1 it returns an independent
copy, deep for the abstractData structures.  In the heap model it allocates
a fresh copy of the referenced abstract data and points the clone at it. -/
def cloneRange (heap : List FormatAbstractData) (r : FormatRange Nat) :
    List FormatAbstractData × FormatRange Nat :=
  (heap ++ [derefD heap r.abstractData], { r with abstractData := heap.length })

/-- The loop body `this.formatMatrix.get(key).map(f => f.clone())` threading the heap. -/
def cloneRanges (heap : List FormatAbstractData) :
    List (FormatRange Nat) → List FormatAbstractData × List (FormatRange Nat)
  | [] => (heap, [])
  | r :: rs =>
    ((cloneRanges (cloneRange heap r).1 rs).1,
      (cloneRange heap r).2 :: (cloneRanges (cloneRange heap r).1 rs).2)

/-- The key loop of `Single.clone` (single.ts lines 49-53): every handler key
is mapped to the element-wise clones of its ranges, in insertion order. -/
def cloneMatrix (heap : List FormatAbstractData) :
    List (Nat × List (FormatRange Nat)) →
      List FormatAbstractData × List (Nat × List (FormatRange Nat))
  | [] => (heap, [])
  | e :: rest =>
    ((cloneMatrix (cloneRanges heap e.2).1 rest).1,
      (e.1, (cloneRanges heap e.2).2) :: (cloneMatrix (cloneRanges heap e.2).1 rest).2)

/-- Embedding of `Single` (single.ts lines 10-15): parent reference (an id), tag name and
the format matrix in key insertion order. -/
structure Single where
  parent : Nat
  tagName : String
  formatMatrix : List (Nat × List (FormatRange Nat))
deriving DecidableEq

/-- Embedding of `Single.clone` (single.ts lines 46-55): a new `Single` with the same
parent and tagName whose matrix maps every handler key to the element-wise
clones of its ranges. -/
def Single.clone (heap : List FormatAbstractData) (s : Single) :
    List FormatAbstractData × Single :=
  ((cloneMatrix heap s.formatMatrix).1,
    ⟨s.parent, s.tagName, (cloneMatrix heap s.formatMatrix).2⟩)

theorem cloneRanges_spec :
    ∀ (rs : List (FormatRange Nat)) (heap : List FormatAbstractData),
      (∀ r ∈ rs, r.abstractData < heap.length) →
      HeapExt heap (cloneRanges heap rs).1 ∧
        ((cloneRanges heap rs).2.map (fun r => (r.startIndex, r.endIndex, r.state,
            derefD (cloneRanges heap rs).1 r.abstractData))
          = rs.map (fun r => (r.startIndex, r.endIndex, r.state,
            derefD heap r.abstractData))) ∧
        ∀ r ∈ (cloneRanges heap rs).2,
          heap.length ≤ r.abstractData ∧ r.abstractData < (cloneRanges heap rs).1.length
  | [], heap, _ => ⟨HeapExt.refl_heap heap, rfl, fun r hr => absurd hr (List.not_mem_nil r)⟩
  | r :: rs, heap, hwf => by
    have hext1 : HeapExt heap (cloneRange heap r).1 :=
      HeapExt.append heap (derefD heap r.abstractData)
    have hlen1 : (cloneRange heap r).1.length = heap.length + 1 := by
      rw [cloneRange]
      simp
    have hwf2 : ∀ x ∈ rs, x.abstractData < (cloneRange heap r).1.length := by
      intro x hx
      rw [hlen1]
      exact Nat.lt_succ_of_lt (hwf x (by simp [hx]))
    obtain ⟨hext2, hmap2, hbound2⟩ := cloneRanges_spec rs (cloneRange heap r).1 hwf2
    refine ⟨hext1.trans_heap hext2, ?_, ?_⟩
    · rw [cloneRanges, List.map_cons, List.map_cons]
      have hhead : derefD (cloneRanges (cloneRange heap r).1 rs).1 heap.length
          = derefD heap r.abstractData := by
        rw [hext2.deref (by rw [hlen1]; omega)]
        rw [cloneRange, derefD]
        simp
      have htail : (cloneRanges (cloneRange heap r).1 rs).2.map
            (fun x => (x.startIndex, x.endIndex, x.state,
              derefD (cloneRanges (cloneRange heap r).1 rs).1 x.abstractData))
          = rs.map (fun x => (x.startIndex, x.endIndex, x.state,
            derefD heap x.abstractData)) := by
        rw [hmap2]
        refine List.map_congr_left ?_
        intro x hx
        rw [hext1.deref (hwf x (by simp [hx]))]
      rw [htail]
      show (r.startIndex, r.endIndex, r.state,
        derefD (cloneRanges (cloneRange heap r).1 rs).1 heap.length) :: _ = _
      rw [hhead]
    · intro x hx
      rw [cloneRanges] at hx
      rcases List.mem_cons.mp hx with rfl | hx2
      · refine ⟨Nat.le_refl _, ?_⟩
        have := hext2.1
        rw [hlen1] at this
        show heap.length < (cloneRanges (cloneRange heap r).1 rs).1.length
        omega
      · obtain ⟨hb1, hb2⟩ := hbound2 x hx2
        rw [hlen1] at hb1
        exact ⟨by omega, hb2⟩

theorem cloneMatrix_spec :
    ∀ (m : List (Nat × List (FormatRange Nat))) (heap : List FormatAbstractData),
      (∀ e ∈ m, ∀ r ∈ e.2, r.abstractData < heap.length) →
      HeapExt heap (cloneMatrix heap m).1 ∧
        ((cloneMatrix heap m).2.map (fun e => (e.1, e.2.map (fun r =>
            (r.startIndex, r.endIndex, r.state,
              derefD (cloneMatrix heap m).1 r.abstractData))))
          = m.map (fun e => (e.1, e.2.map (fun r =>
            (r.startIndex, r.endIndex, r.state, derefD heap r.abstractData))))) ∧
        ∀ e ∈ (cloneMatrix heap m).2, ∀ r ∈ e.2,
          heap.length ≤ r.abstractData ∧ r.abstractData < (cloneMatrix heap m).1.length
  | [], heap, _ => ⟨HeapExt.refl_heap heap, rfl, fun e he => absurd he (List.not_mem_nil e)⟩
  | e :: m, heap, hwf => by
    obtain ⟨hext1, hmap1, hbound1⟩ := cloneRanges_spec e.2 heap (hwf e (by simp))
    have hwf2 : ∀ x ∈ m, ∀ r ∈ x.2, r.abstractData < (cloneRanges heap e.2).1.length := by
      intro x hx r hr
      exact Nat.lt_of_lt_of_le (hwf x (by simp [hx]) r hr) hext1.1
    obtain ⟨hext2, hmap2, hbound2⟩ := cloneMatrix_spec m (cloneRanges heap e.2).1 hwf2
    refine ⟨hext1.trans_heap hext2, ?_, ?_⟩
    · rw [cloneMatrix, List.map_cons, List.map_cons]
      have hhead : (cloneRanges heap e.2).2.map (fun r =>
            (r.startIndex, r.endIndex, r.state,
              derefD (cloneMatrix (cloneRanges heap e.2).1 m).1 r.abstractData))
          = e.2.map (fun r => (r.startIndex, r.endIndex, r.state,
            derefD heap r.abstractData)) := by
        rw [← hmap1]
        refine List.map_congr_left ?_
        intro x hx
        rw [hext2.deref (hbound1 x hx).2]
      have htail : (cloneMatrix (cloneRanges heap e.2).1 m).2.map (fun x =>
            (x.1, x.2.map (fun r => (r.startIndex, r.endIndex, r.state,
              derefD (cloneMatrix (cloneRanges heap e.2).1 m).1 r.abstractData))))
          = m.map (fun x => (x.1, x.2.map (fun r =>
            (r.startIndex, r.endIndex, r.state, derefD heap r.abstractData)))) := by
        rw [hmap2]
        refine List.map_congr_left ?_
        intro x hx
        refine congrArg (fun z => (x.1, z)) ?_
        refine List.map_congr_left ?_
        intro y hy
        rw [hext1.deref (hwf x (by simp [hx]) y hy)]
      rw [hhead, htail]
    · intro x hx r hr
      rw [cloneMatrix] at hx
      rcases List.mem_cons.mp hx with rfl | hx2
      · obtain ⟨hb1, hb2⟩ := hbound1 r hr
        exact ⟨hb1, Nat.lt_of_lt_of_le hb2 hext2.1⟩
      · obtain ⟨hb1, hb2⟩ := hbound2 x hx2 r hr
        exact ⟨Nat.le_trans hext1.1 hb1, hb2⟩

/-- C5: `Single.clone` returns a new `Single` with the same `tagName` and the
same parent reference whose format matrix is deep-equal to the original
(every handler key maps to element-wise clones of the original ranges, equal
in indices, state and dereferenced abstract data) and independent: every
cloned range points at fresh heap cells, so writing any value over a cell at
or beyond the old heap end (in particular over any cloned range's
abstractData) leaves every abstract datum reachable from the original's
matrix unchanged. -/
theorem claim_C5_single_clone_deep_independent (heap : List FormatAbstractData)
    (s : Single)
    (hwf : ∀ e ∈ s.formatMatrix, ∀ r ∈ e.2, r.abstractData < heap.length) :
    ((Single.clone heap s).2.tagName = s.tagName) ∧
      ((Single.clone heap s).2.parent = s.parent) ∧
      ((Single.clone heap s).2.formatMatrix.map Prod.fst
        = s.formatMatrix.map Prod.fst) ∧
      ((Single.clone heap s).2.formatMatrix.map (fun e => (e.1, e.2.map (fun r =>
          (r.startIndex, r.endIndex, r.state,
            derefD (Single.clone heap s).1 r.abstractData))))
        = s.formatMatrix.map (fun e => (e.1, e.2.map (fun r =>
          (r.startIndex, r.endIndex, r.state, derefD heap r.abstractData))))) ∧
      (∀ e ∈ (Single.clone heap s).2.formatMatrix, ∀ r ∈ e.2,
        heap.length ≤ r.abstractData) ∧
      (∀ (j : Nat) (v : FormatAbstractData), heap.length ≤ j →
        ∀ e ∈ s.formatMatrix, ∀ r ∈ e.2,
          derefD ((Single.clone heap s).1.set j v) r.abstractData
            = derefD heap r.abstractData) := by
  obtain ⟨hext, hmap, hbound⟩ := cloneMatrix_spec s.formatMatrix heap hwf
  refine ⟨rfl, rfl, ?_, hmap, ?_, ?_⟩
  · have h2 := congrArg (List.map Prod.fst) hmap
    rw [List.map_map, List.map_map] at h2
    exact h2
  · intro e he r hr
    exact (hbound e he r hr).1
  · intro j v hj e he r hr
    have hr2 : r.abstractData < heap.length := hwf e he r hr
    rw [derefD, List.getElem?_set_ne (by omega)]
    rw [← derefD]
    show derefD (cloneMatrix heap s.formatMatrix).1 r.abstractData
      = derefD heap r.abstractData
    rw [hext.deref hr2]

/-- Witness for C5 at a concrete heap and node: the clone keeps the tag name
and writing over the freshly allocated cell leaves the original's datum
intact. -/
theorem claim_C5_single_clone_deep_independent_witness :
    (∀ e ∈ ([(3, [⟨0, 2, FormatState.valid, 0⟩])] :
        List (Nat × List (FormatRange Nat))), ∀ r ∈ e.2, r.abstractData < 1) ∧
      (Single.clone [⟨"strong", [], [], []⟩]
        ⟨0, "img", [(3, [⟨0, 2, FormatState.valid, 0⟩])]⟩).2.tagName = "img" ∧
      derefD ((Single.clone [⟨"strong", [], [], []⟩]
          ⟨0, "img", [(3, [⟨0, 2, FormatState.valid, 0⟩])]⟩).1.set 1
            ⟨"em", [], [], []⟩) 0
        = derefD [⟨"strong", [], [], []⟩] 0 := by
  have h := claim_C5_single_clone_deep_independent [⟨"strong", [], [], []⟩]
    ⟨0, "img", [(3, [⟨0, 2, FormatState.valid, 0⟩])]⟩ (by decide)
  refine ⟨by decide, h.1, ?_⟩
  exact h.2.2.2.2.2 1 ⟨"em", [], [], []⟩ (by decide)
    (3, [⟨0, 2, FormatState.valid, 0⟩]) (by simp)
    ⟨0, 2, FormatState.valid, 0⟩ (by simp)
